import Mathlib

/-!
Shallow embedding of `process_icon.py` (`make_icon_transparent`): a pass that
walks the four corner regions of an RGBA image and sets the alpha channel of
near-white pixels inside each region's circle to 0.

Conventions of the embedding:
* Python ints are `ℤ`; the float `corner_ratio` is an exact rational `ℚ`
  (`int(width * corner_ratio)` becomes `⌊width * ratio⌋`, and Python's floor
  division `//` becomes `Int.fdiv`).
* `math.sqrt((x-cx)**2 + (y-cy)**2) <= radius` is embedded as the equivalent
  exact test `0 ≤ radius ∧ (x-cx)^2 + (y-cy)^2 ≤ radius^2` (a correctly
  rounded square root of an exactly representable integer compares to the
  nonnegative integer `radius` exactly as the squares do, and `math.sqrt`
  never returns a negative value).
* The image is a width, a height, and a total pixel map `ℤ → ℤ → Pixel`;
  `putpixel` is a functional update.
-/

/-- One RGBA pixel as `getpixel` returns it: channels `(r, g, b, a)`. -/
structure Pixel where
  r : ℤ
  g : ℤ
  b : ℤ
  a : ℤ
deriving DecidableEq, Repr

/-- The image buffer: dimensions plus a pixel accessor, as the engine sees it. -/
structure Image where
  width : ℤ
  height : ℤ
  pix : ℤ → ℤ → Pixel

/-- `new_img.putpixel((x, y), p)`: functional in-place update of one pixel. -/
def Image.putpixel (img : Image) (x y : ℤ) (p : Pixel) : Image :=
  { img with pix := fun x' y' => if x' = x ∧ y' = y then p else img.pix x' y' }

/-- One corner region: center `(cx, cy)`, `radius`, and its label, exactly the
tuples built at lines 43–52 of `process_icon.py`. -/
structure CornerRegion where
  cx : ℤ
  cy : ℤ
  radius : ℤ
  label : String
deriving DecidableEq, Repr

/-- `corner_size = int(width * corner_ratio)` (line 34); for the nonnegative
values that arise this is the floor of the exact product. -/
def cornerSize (width : ℤ) (ratio : ℚ) : ℤ :=
  ⌊(width : ℚ) * ratio⌋

/-- The list `corner_regions` (lines 43–52): centers `corner_size//2` in from
each corner, radius `corner_size//2`.  Python `//` is floor division, hence
`Int.fdiv`. -/
def cornerRegions (width height : ℤ) (ratio : ℚ) : List CornerRegion :=
  let cs := cornerSize width ratio
  [ ⟨cs.fdiv 2, cs.fdiv 2, cs.fdiv 2, "左上角"⟩,
    ⟨width - cs.fdiv 2, cs.fdiv 2, cs.fdiv 2, "右上角"⟩,
    ⟨cs.fdiv 2, height - cs.fdiv 2, cs.fdiv 2, "左下角"⟩,
    ⟨width - cs.fdiv 2, height - cs.fdiv 2, cs.fdiv 2, "右下角"⟩ ]

/-- The white-background test of lines 83–85: each channel at least
`255 - color_tolerance`.  The alpha channel is unpacked but unused. -/
def isBackground (r g b tol : ℤ) : Bool :=
  decide (255 - tol ≤ r) && decide (255 - tol ≤ g) && decide (255 - tol ≤ b)

/-- Classification as applied to a whole pixel (`r, g, b, a = pixel` then the
channel test): only the RGB channels are read. -/
def classifyPixel (p : Pixel) (tol : ℤ) : Bool :=
  isBackground p.r p.g p.b tol

/-- `distance = math.sqrt((x-cx)**2+(y-cy)**2); distance <= radius`
(lines 74–77), embedded exactly via squares (see the header comment). -/
def inCircle (dx dy radius : ℤ) : Bool :=
  decide (0 ≤ radius ∧ dx ^ 2 + dy ^ 2 ≤ radius ^ 2)

/-- `range(a, b)` over integers. -/
def intRange (a b : ℤ) : List ℤ :=
  (List.range (b - a).toNat).map (fun i : ℕ => a + (i : ℤ))

/-- State threaded through one region's nested loop: the image being mutated,
the running global `transparent_count`, and the per-region
`corner_transparent` / `corner_total` counters. -/
structure PassState where
  img : Image
  transparent_count : ℤ
  corner_transparent : ℤ
  corner_total : ℤ

/-- The body of the inner `for x in range(x1, x2)` loop (lines 72–89). -/
def pixelStep (tol : ℤ) (cx cy radius : ℤ) (y : ℤ) (s : PassState) (x : ℤ) :
    PassState :=
  if inCircle (x - cx) (y - cy) radius then
    let p := s.img.pix x y
    if isBackground p.r p.g p.b tol then
      { img := s.img.putpixel x y ⟨p.r, p.g, p.b, 0⟩,
        transparent_count := s.transparent_count + 1,
        corner_transparent := s.corner_transparent + 1,
        corner_total := s.corner_total + 1 }
    else
      { s with corner_total := s.corner_total + 1 }
  else s

/-- One region's pass (lines 59–89): clip the bounding box, then the nested
loops, starting from per-region counters 0. -/
def regionPass (tol : ℤ) (img : Image) (tc : ℤ) (reg : CornerRegion) :
    PassState :=
  let x1 := max 0 (reg.cx - reg.radius)
  let y1 := max 0 (reg.cy - reg.radius)
  let x2 := min img.width (reg.cx + reg.radius)
  let y2 := min img.height (reg.cy + reg.radius)
  (intRange y1 y2).foldl
    (fun s y => (intRange x1 x2).foldl (pixelStep tol reg.cx reg.cy reg.radius y) s)
    { img := img, transparent_count := tc,
      corner_transparent := 0, corner_total := 0 }

/-- The per-region report of lines 91–93: printed only `if corner_total > 0`,
as `corner_transparent / corner_total * 100`.  `none` means no percentage is
printed for the region. -/
def regionReport (corner_transparent corner_total : ℤ) : Option ℚ :=
  if corner_total > 0 then
    some ((corner_transparent : ℚ) / (corner_total : ℚ) * 100)
  else none

/-- The whole masking pass over the four regions (lines 54–93), also
collecting each region's `(corner_transparent, corner_total)` pair and the
final global `transparent_count`. -/
def runRegions (img : Image) (ratio : ℚ) (tol : ℤ) :
    Image × ℤ × List (ℤ × ℤ) :=
  (cornerRegions img.width img.height ratio).foldl
    (fun acc reg =>
      let s := regionPass tol acc.1 acc.2.1 reg
      (s.img, s.transparent_count, acc.2.2 ++ [(s.corner_transparent, s.corner_total)]))
    (img, 0, [])

/-- The buffer produced by `make_icon_transparent` (the mutated `new_img`). -/
def make_icon_transparent (img : Image) (ratio : ℚ) (tol : ℤ) : Image :=
  (runRegions img ratio tol).1

/-- The per-region percentage reports of a whole pass, in region order: each
region's counters fed to the `if corner_total > 0` report of lines 91–93. -/
def regionReports (img : Image) (ratio : ℚ) (tol : ℤ) : List (Option ℚ) :=
  ((runRegions img ratio tol).2.2).map (fun p => regionReport p.1 p.2)

/-- `transparency_percentage = (transparent_count / total_pixels) * 100`
(line 95); the denominator is `width * height`, not the tested-pixel count. -/
def transparencyPercentage (img : Image) (ratio : ℚ) (tol : ℤ) : ℚ :=
  ((runRegions img ratio tol).2.1 : ℚ) / ((img.width : ℚ) * (img.height : ℚ)) * 100

/-- The pixel written at line 87: `(r, g, b, 0)` — RGB kept, alpha zeroed. -/
def Pixel.clear (p : Pixel) : Pixel :=
  ⟨p.r, p.g, p.b, 0⟩

/-- The guard under which line 87 rewrites pixel `(x, y)`: inside the circle
and classified as background. -/
def pixelHit (tol cx cy radius x y : ℤ) (p : Pixel) : Bool :=
  inCircle (x - cx) (y - cy) radius && isBackground p.r p.g p.b tol

/-- Pixel `(x, y)` is in region `reg`'s candidate set: inside the clipped
half-open bounding box of lines 66–69 and within the circle (line 77). -/
def testedBy (W H : ℤ) (reg : CornerRegion) (x y : ℤ) : Prop :=
  max 0 (reg.cx - reg.radius) ≤ x ∧ x < min W (reg.cx + reg.radius) ∧
  max 0 (reg.cy - reg.radius) ≤ y ∧ y < min H (reg.cy + reg.radius) ∧
  inCircle (x - reg.cx) (y - reg.cy) reg.radius = true

instance (W H : ℤ) (reg : CornerRegion) (x y : ℤ) :
    Decidable (testedBy W H reg x y) := by
  unfold testedBy; infer_instance

/-- The cells of a region's clipped bounding box, row-major as the loops
visit them. -/
def bboxCells (W H : ℤ) (reg : CornerRegion) : List (ℤ × ℤ) :=
  (intRange (max 0 (reg.cy - reg.radius)) (min H (reg.cy + reg.radius))).flatMap
    (fun y => (intRange (max 0 (reg.cx - reg.radius)) (min W (reg.cx + reg.radius))).map
      (fun x => (x, y)))

/-- Number of pixels a region's pass tests (`corner_total`'s intended value). -/
def countTested (W H : ℤ) (reg : CornerRegion) : ℤ :=
  ((bboxCells W H reg).filter
    (fun c => inCircle (c.1 - reg.cx) (c.2 - reg.cy) reg.radius)).length

/-- Number of pixels a region's pass makes transparent, against image `img`
(`corner_transparent`'s intended value). -/
def countTransparent (tol : ℤ) (img : Image) (reg : CornerRegion) : ℤ :=
  ((bboxCells img.width img.height reg).filter
    (fun c => pixelHit tol reg.cx reg.cy reg.radius c.1 c.2 (img.pix c.1 c.2))).length

/-- Pixel `(x, y)` is made transparent by the pass: some region tests it and
classifies its color as background. -/
def madeTransparent (img : Image) (ratio : ℚ) (tol : ℤ) (x y : ℤ) : Prop :=
  ∃ reg ∈ cornerRegions img.width img.height ratio,
    testedBy img.width img.height reg x y ∧ classifyPixel (img.pix x y) tol = true

instance (img : Image) (ratio : ℚ) (tol : ℤ) (x y : ℤ) :
    Decidable (madeTransparent img ratio tol x y) := by
  unfold madeTransparent; infer_instance

/-- Pixel `(x, y)` lies in region `reg`'s clipped bounding box
`[x1, x2) × [y1, y2)` of lines 66–69 (circle test not included). -/
def inBBox (W H : ℤ) (reg : CornerRegion) (x y : ℤ) : Prop :=
  max 0 (reg.cx - reg.radius) ≤ x ∧ x < min W (reg.cx + reg.radius) ∧
  max 0 (reg.cy - reg.radius) ≤ y ∧ y < min H (reg.cy + reg.radius)

instance (W H : ℤ) (reg : CornerRegion) (x y : ℤ) : Decidable (inBBox W H reg x y) := by
  unfold inBBox; infer_instance

/-- A solid-color test image. -/
def solidImage (w h : ℤ) (p : Pixel) : Image :=
  ⟨w, h, fun _ _ => p⟩

def whitePx : Pixel := ⟨255, 255, 255, 255⟩

/-- The exceptions the body of `make_icon_transparent` can raise: a failed
`Image.open`, the `ZeroDivisionError` of line 95 on an empty image, a failed
`save`. -/
inductive PyError where
  | decodeFailure : String → PyError
  | zeroDivision : PyError
  | encodeFailure : String → PyError

/-- The fallible body of `make_icon_transparent` (lines 22–106): open the
image, run the masking pass, compute the overall percentage (whose division
by `width * height` raises on an empty image), save.  The I/O outcomes are
abstracted as parameters. -/
def make_icon_transparent_body (openResult : Except PyError Image) (ratio : ℚ)
    (tol : ℤ) (saveResult : Image → Except PyError Unit) : Except PyError Unit := do
  let img ← openResult
  let out := make_icon_transparent img ratio tol
  if img.width * img.height = 0 then
    throw PyError.zeroDivision
  else
    saveResult out

/-- The whole function: the body wrapped in `try:` with the
`except Exception as e:` handler of lines 108–109, which prints the error and
falls through, so the function always returns `None` normally. -/
def make_icon_transparent_caught (openResult : Except PyError Image) (ratio : ℚ)
    (tol : ℤ) (saveResult : Image → Except PyError Unit) : Except PyError Unit :=
  match make_icon_transparent_body openResult ratio tol saveResult with
  | Except.ok _ => Except.ok ()
  | Except.error _ => Except.ok ()

/-! ### Basic lemmas about the embedding's building blocks

The proofs below characterise the nested loops of `make_icon_transparent`
pointwise: each cell of a region's clipped bounding box is visited exactly
once, so the final buffer and the counters can be described directly in
terms of the input buffer. -/

lemma putpixel_pix (img : Image) (x y : ℤ) (p : Pixel) (x' y' : ℤ) :
    (img.putpixel x y p).pix x' y' = if x' = x ∧ y' = y then p else img.pix x' y' := rfl

lemma putpixel_width (img : Image) (x y : ℤ) (p : Pixel) :
    (img.putpixel x y p).width = img.width := rfl

lemma putpixel_height (img : Image) (x y : ℤ) (p : Pixel) :
    (img.putpixel x y p).height = img.height := rfl

lemma mem_intRange {a b z : ℤ} : z ∈ intRange a b ↔ a ≤ z ∧ z < b := by
  unfold intRange
  constructor
  · intro h
    obtain ⟨i, hi, rfl⟩ := List.mem_map.mp h
    rw [List.mem_range] at hi
    omega
  · intro h
    refine List.mem_map.mpr ⟨(z - a).toNat, ?_, ?_⟩
    · rw [List.mem_range]; omega
    · omega

lemma nodup_intRange (a b : ℤ) : (intRange a b).Nodup := by
  unfold intRange
  refine List.Nodup.map ?_ (List.nodup_range _)
  intro i j h
  simp only at h
  omega

lemma Pixel.clear_r (p : Pixel) : p.clear.r = p.r := rfl
lemma Pixel.clear_g (p : Pixel) : p.clear.g = p.g := rfl
lemma Pixel.clear_b (p : Pixel) : p.clear.b = p.b := rfl
lemma Pixel.clear_a (p : Pixel) : p.clear.a = 0 := rfl

lemma Pixel.clear_clear (p : Pixel) : p.clear.clear = p.clear := rfl

/-- `classifyPixel` reads only the RGB channels, so clearing alpha does not
change it. -/
lemma classifyPixel_clear (p : Pixel) (tol : ℤ) :
    classifyPixel p.clear tol = classifyPixel p tol := rfl

lemma pixelHit_eq_classify (tol cx cy radius x y : ℤ) (p : Pixel) :
    pixelHit tol cx cy radius x y p =
      (inCircle (x - cx) (y - cy) radius && classifyPixel p tol) := rfl

/-! ### The inner `for x` loop -/

lemma pixelStep_img_width (tol cx cy radius y : ℤ) (s : PassState) (x : ℤ) :
    (pixelStep tol cx cy radius y s x).img.width = s.img.width := by
  unfold pixelStep
  rcases hc : inCircle (x - cx) (y - cy) radius with _ | _
  · simp [hc]
  · rcases hb : isBackground (s.img.pix x y).r (s.img.pix x y).g (s.img.pix x y).b tol
      with _ | _
    · simp [hc, hb]
    · simp [hc, hb, putpixel_width]

lemma pixelStep_img_height (tol cx cy radius y : ℤ) (s : PassState) (x : ℤ) :
    (pixelStep tol cx cy radius y s x).img.height = s.img.height := by
  unfold pixelStep
  rcases hc : inCircle (x - cx) (y - cy) radius with _ | _
  · simp [hc]
  · rcases hb : isBackground (s.img.pix x y).r (s.img.pix x y).g (s.img.pix x y).b tol
      with _ | _
    · simp [hc, hb]
    · simp [hc, hb, putpixel_height]

lemma pixelStep_img_pix (tol cx cy radius y : ℤ) (s : PassState) (x x' y' : ℤ) :
    (pixelStep tol cx cy radius y s x).img.pix x' y' =
      if (x' = x ∧ y' = y) ∧ pixelHit tol cx cy radius x y (s.img.pix x y) then
        (s.img.pix x y).clear
      else s.img.pix x' y' := by
  unfold pixelStep pixelHit
  rcases hc : inCircle (x - cx) (y - cy) radius with _ | _
  · simp [hc]
  · rcases hb : isBackground (s.img.pix x y).r (s.img.pix x y).g (s.img.pix x y).b tol
      with _ | _
    · simp [hc, hb]
    · simp [hc, hb, putpixel_pix, Pixel.clear]

lemma pixelStep_corner_total (tol cx cy radius y : ℤ) (s : PassState) (x : ℤ) :
    (pixelStep tol cx cy radius y s x).corner_total =
      if inCircle (x - cx) (y - cy) radius then s.corner_total + 1 else s.corner_total := by
  unfold pixelStep
  rcases hc : inCircle (x - cx) (y - cy) radius with _ | _
  · simp [hc]
  · rcases hb : isBackground (s.img.pix x y).r (s.img.pix x y).g (s.img.pix x y).b tol
      with _ | _
    · simp [hc, hb]
    · simp [hc, hb]

lemma pixelStep_corner_transparent (tol cx cy radius y : ℤ) (s : PassState) (x : ℤ) :
    (pixelStep tol cx cy radius y s x).corner_transparent =
      if pixelHit tol cx cy radius x y (s.img.pix x y) then
        s.corner_transparent + 1
      else s.corner_transparent := by
  unfold pixelStep pixelHit
  rcases hc : inCircle (x - cx) (y - cy) radius with _ | _
  · simp [hc]
  · rcases hb : isBackground (s.img.pix x y).r (s.img.pix x y).g (s.img.pix x y).b tol
      with _ | _
    · simp [hc, hb]
    · simp [hc, hb]

lemma pixelStep_transparent_count (tol cx cy radius y : ℤ) (s : PassState) (x : ℤ) :
    (pixelStep tol cx cy radius y s x).transparent_count =
      if pixelHit tol cx cy radius x y (s.img.pix x y) then
        s.transparent_count + 1
      else s.transparent_count := by
  unfold pixelStep pixelHit
  rcases hc : inCircle (x - cx) (y - cy) radius with _ | _
  · simp [hc]
  · rcases hb : isBackground (s.img.pix x y).r (s.img.pix x y).g (s.img.pix x y).b tol
      with _ | _
    · simp [hc, hb]
    · simp [hc, hb]

lemma xfold_img_width (tol cx cy radius y : ℤ) (xs : List ℤ) (s : PassState) :
    ((xs.foldl (pixelStep tol cx cy radius y) s).img.width = s.img.width) := by
  induction xs generalizing s with
  | nil => rfl
  | cons x xs ih => rw [List.foldl_cons, ih, pixelStep_img_width]

lemma xfold_img_height (tol cx cy radius y : ℤ) (xs : List ℤ) (s : PassState) :
    ((xs.foldl (pixelStep tol cx cy radius y) s).img.height = s.img.height) := by
  induction xs generalizing s with
  | nil => rfl
  | cons x xs ih => rw [List.foldl_cons, ih, pixelStep_img_height]

lemma xfold_img_pix (tol cx cy radius y : ℤ) (xs : List ℤ) (hnd : xs.Nodup)
    (s : PassState) (x' y' : ℤ) :
    ((xs.foldl (pixelStep tol cx cy radius y) s).img.pix x' y' =
      if (x' ∈ xs ∧ y' = y) ∧ pixelHit tol cx cy radius x' y' (s.img.pix x' y') then
        (s.img.pix x' y').clear
      else s.img.pix x' y') := by
  induction xs generalizing s with
  | nil => simp
  | cons x xs ih =>
    obtain ⟨hx, hnd'⟩ := List.nodup_cons.mp hnd
    rw [List.foldl_cons, ih hnd']
    have hs1 := pixelStep_img_pix tol cx cy radius y s x x' y'
    by_cases h1 : x' = x ∧ y' = y
    · obtain ⟨h1x, h1y⟩ := h1
      subst h1x
      subst h1y
      have hL : ¬ ((x' ∈ xs ∧ y' = y') ∧
          pixelHit tol cx cy radius x' y'
            ((pixelStep tol cx cy radius y' s x').img.pix x' y') = true) := by
        intro hcon; exact hx hcon.1.1
      rw [if_neg hL]
      have hcondR : ((x' ∈ x' :: xs ∧ y' = y') ∧
          pixelHit tol cx cy radius x' y' (s.img.pix x' y') = true) ↔
          (pixelHit tol cx cy radius x' y' (s.img.pix x' y') = true) := by
        simp [List.mem_cons]
      rw [if_congr hcondR rfl rfl, hs1]
      by_cases hh : pixelHit tol cx cy radius x' y' (s.img.pix x' y') = true
      · rw [if_pos ⟨⟨rfl, rfl⟩, hh⟩, if_pos hh]
      · rw [if_neg (fun hcon => hh hcon.2), if_neg hh]
    · have hs1' : (pixelStep tol cx cy radius y s x).img.pix x' y' = s.img.pix x' y' := by
        rw [hs1]; exact if_neg (fun hcon => h1 hcon.1)
      rw [hs1']
      have hcond : ((x' ∈ xs ∧ y' = y) ∧
            pixelHit tol cx cy radius x' y' (s.img.pix x' y') = true) ↔
          ((x' ∈ x :: xs ∧ y' = y) ∧
            pixelHit tol cx cy radius x' y' (s.img.pix x' y') = true) := by
        simp only [List.mem_cons]
        constructor
        · rintro ⟨⟨hm, hy⟩, hh⟩; exact ⟨⟨Or.inr hm, hy⟩, hh⟩
        · rintro ⟨⟨hm, hy⟩, hh⟩
          rcases hm with rfl | hm
          · exact absurd ⟨rfl, hy⟩ h1
          · exact ⟨⟨hm, hy⟩, hh⟩
      rw [if_congr hcond rfl rfl]

lemma xfold_corner_total (tol cx cy radius y : ℤ) (xs : List ℤ) (s : PassState) :
    ((xs.foldl (pixelStep tol cx cy radius y) s).corner_total =
      s.corner_total +
        ((xs.filter (fun x => inCircle (x - cx) (y - cy) radius)).length : ℤ)) := by
  induction xs generalizing s with
  | nil => simp
  | cons x xs ih =>
    rw [List.foldl_cons, ih]
    rw [pixelStep_corner_total]
    rcases hc : inCircle (x - cx) (y - cy) radius with _ | _
    · simp [List.filter_cons, hc]
    · simp only [List.filter_cons, hc, if_pos, List.length_cons]
      push_cast
      ring

lemma xfold_corner_transparent (tol cx cy radius y : ℤ) (xs : List ℤ) (hnd : xs.Nodup)
    (s : PassState) :
    ((xs.foldl (pixelStep tol cx cy radius y) s).corner_transparent =
      s.corner_transparent +
        ((xs.filter
          (fun x => pixelHit tol cx cy radius x y (s.img.pix x y))).length : ℤ)) := by
  induction xs generalizing s with
  | nil => simp
  | cons x xs ih =>
    obtain ⟨hx, hnd'⟩ := List.nodup_cons.mp hnd
    rw [List.foldl_cons, ih hnd']
    have hstable : ∀ x'' ∈ xs,
        pixelHit tol cx cy radius x'' y ((pixelStep tol cx cy radius y s x).img.pix x'' y) =
          pixelHit tol cx cy radius x'' y (s.img.pix x'' y) := by
      intro x'' hx''
      have hne : ¬ (x'' = x ∧ y = y) := fun hcon => hx (hcon.1 ▸ hx'')
      rw [pixelStep_img_pix, if_neg (fun hcon => hne hcon.1)]
    rw [List.filter_congr hstable]
    rw [pixelStep_corner_transparent]
    rcases hh : pixelHit tol cx cy radius x y (s.img.pix x y) with _ | _
    · simp [List.filter_cons, hh]
    · simp only [List.filter_cons, hh, if_pos, List.length_cons]
      push_cast
      ring

lemma xfold_transparent_count (tol cx cy radius y : ℤ) (xs : List ℤ) (hnd : xs.Nodup)
    (s : PassState) :
    ((xs.foldl (pixelStep tol cx cy radius y) s).transparent_count =
      s.transparent_count +
        ((xs.filter
          (fun x => pixelHit tol cx cy radius x y (s.img.pix x y))).length : ℤ)) := by
  induction xs generalizing s with
  | nil => simp
  | cons x xs ih =>
    obtain ⟨hx, hnd'⟩ := List.nodup_cons.mp hnd
    rw [List.foldl_cons, ih hnd']
    have hstable : ∀ x'' ∈ xs,
        pixelHit tol cx cy radius x'' y ((pixelStep tol cx cy radius y s x).img.pix x'' y) =
          pixelHit tol cx cy radius x'' y (s.img.pix x'' y) := by
      intro x'' hx''
      have hne : ¬ (x'' = x ∧ y = y) := fun hcon => hx (hcon.1 ▸ hx'')
      rw [pixelStep_img_pix, if_neg (fun hcon => hne hcon.1)]
    rw [List.filter_congr hstable]
    rw [pixelStep_transparent_count]
    rcases hh : pixelHit tol cx cy radius x y (s.img.pix x y) with _ | _
    · simp [List.filter_cons, hh]
    · simp only [List.filter_cons, hh, if_pos, List.length_cons]
      push_cast
      ring

/-! ### The outer `for y` loop -/

lemma yfold_img_width (tol cx cy radius x1 x2 : ℤ) (ys : List ℤ) (s : PassState) :
    ((ys.foldl
      (fun s y => (intRange x1 x2).foldl (pixelStep tol cx cy radius y) s) s).img.width =
      s.img.width) := by
  induction ys generalizing s with
  | nil => rfl
  | cons y ys ih => rw [List.foldl_cons, ih, xfold_img_width]

lemma yfold_img_height (tol cx cy radius x1 x2 : ℤ) (ys : List ℤ) (s : PassState) :
    ((ys.foldl
      (fun s y => (intRange x1 x2).foldl (pixelStep tol cx cy radius y) s) s).img.height =
      s.img.height) := by
  induction ys generalizing s with
  | nil => rfl
  | cons y ys ih => rw [List.foldl_cons, ih, xfold_img_height]

lemma yfold_img_pix (tol cx cy radius x1 x2 : ℤ) (ys : List ℤ) (hnd : ys.Nodup)
    (s : PassState) (x' y' : ℤ) :
    ((ys.foldl
      (fun s y => (intRange x1 x2).foldl (pixelStep tol cx cy radius y) s) s).img.pix x' y' =
      if (x' ∈ intRange x1 x2 ∧ y' ∈ ys) ∧
          pixelHit tol cx cy radius x' y' (s.img.pix x' y') then
        (s.img.pix x' y').clear
      else s.img.pix x' y') := by
  induction ys generalizing s with
  | nil => simp
  | cons y ys ih =>
    obtain ⟨hy, hnd'⟩ := List.nodup_cons.mp hnd
    rw [List.foldl_cons, ih hnd']
    have hs1 := xfold_img_pix tol cx cy radius y (intRange x1 x2)
      (nodup_intRange x1 x2) s x' y'
    by_cases h1 : x' ∈ intRange x1 x2 ∧ y' = y
    · obtain ⟨h1x, h1y⟩ := h1
      subst h1y
      have hL : ¬ ((x' ∈ intRange x1 x2 ∧ y' ∈ ys) ∧
          pixelHit tol cx cy radius x' y'
            (((intRange x1 x2).foldl (pixelStep tol cx cy radius y') s).img.pix x' y') =
            true) := by
        intro hcon; exact hy hcon.1.2
      rw [if_neg hL]
      have hcondR : ((x' ∈ intRange x1 x2 ∧ y' ∈ y' :: ys) ∧
          pixelHit tol cx cy radius x' y' (s.img.pix x' y') = true) ↔
          (pixelHit tol cx cy radius x' y' (s.img.pix x' y') = true) := by
        simp [List.mem_cons, h1x]
      rw [if_congr hcondR rfl rfl, hs1]
      by_cases hh : pixelHit tol cx cy radius x' y' (s.img.pix x' y') = true
      · rw [if_pos ⟨⟨h1x, rfl⟩, hh⟩, if_pos hh]
      · rw [if_neg (fun hcon => hh hcon.2), if_neg hh]
    · have hs1' :
          (((intRange x1 x2).foldl (pixelStep tol cx cy radius y) s).img.pix x' y' =
            s.img.pix x' y') := by
        rw [hs1]; exact if_neg (fun hcon => h1 hcon.1)
      rw [hs1']
      have hcond : ((x' ∈ intRange x1 x2 ∧ y' ∈ ys) ∧
            pixelHit tol cx cy radius x' y' (s.img.pix x' y') = true) ↔
          ((x' ∈ intRange x1 x2 ∧ y' ∈ y :: ys) ∧
            pixelHit tol cx cy radius x' y' (s.img.pix x' y') = true) := by
        simp only [List.mem_cons]
        constructor
        · rintro ⟨⟨hm, hym⟩, hh⟩; exact ⟨⟨hm, Or.inr hym⟩, hh⟩
        · rintro ⟨⟨hm, hym⟩, hh⟩
          rcases hym with rfl | hym
          · exact absurd ⟨hm, rfl⟩ h1
          · exact ⟨⟨hm, hym⟩, hh⟩
      rw [if_congr hcond rfl rfl]

lemma length_filter_row_circle (cx cy radius x1 x2 y : ℤ) :
    ((((intRange x1 x2).map (fun x => (x, y))).filter
        (fun c : ℤ × ℤ => inCircle (c.1 - cx) (c.2 - cy) radius)).length =
      ((intRange x1 x2).filter (fun x => inCircle (x - cx) (y - cy) radius)).length) := by
  rw [List.filter_map, List.length_map]
  rfl

lemma length_filter_row_hit (tol cx cy radius x1 x2 y : ℤ) (f : ℤ → ℤ → Pixel) :
    ((((intRange x1 x2).map (fun x => (x, y))).filter
        (fun c : ℤ × ℤ => pixelHit tol cx cy radius c.1 c.2 (f c.1 c.2))).length =
      ((intRange x1 x2).filter (fun x => pixelHit tol cx cy radius x y (f x y))).length) := by
  rw [List.filter_map, List.length_map]
  rfl

lemma yfold_corner_total (tol cx cy radius x1 x2 : ℤ) (ys : List ℤ) (s : PassState) :
    ((ys.foldl
      (fun s y => (intRange x1 x2).foldl (pixelStep tol cx cy radius y) s) s).corner_total =
      s.corner_total +
        (((ys.flatMap (fun y => (intRange x1 x2).map (fun x => (x, y)))).filter
          (fun c : ℤ × ℤ => inCircle (c.1 - cx) (c.2 - cy) radius)).length : ℤ)) := by
  induction ys generalizing s with
  | nil => simp
  | cons y ys ih =>
    rw [List.foldl_cons, ih, xfold_corner_total, List.flatMap_cons, List.filter_append,
      List.length_append, length_filter_row_circle]
    push_cast
    ring

lemma yfold_corner_transparent (tol cx cy radius x1 x2 : ℤ) (ys : List ℤ)
    (hnd : ys.Nodup) (s : PassState) :
    ((ys.foldl
      (fun s y => (intRange x1 x2).foldl (pixelStep tol cx cy radius y) s) s).corner_transparent =
      s.corner_transparent +
        (((ys.flatMap (fun y => (intRange x1 x2).map (fun x => (x, y)))).filter
          (fun c : ℤ × ℤ => pixelHit tol cx cy radius c.1 c.2 (s.img.pix c.1 c.2))).length : ℤ)) := by
  induction ys generalizing s with
  | nil => simp
  | cons y ys ih =>
    obtain ⟨hy, hnd'⟩ := List.nodup_cons.mp hnd
    rw [List.foldl_cons, ih hnd']
    have hstable : ∀ c ∈ ys.flatMap (fun y => (intRange x1 x2).map (fun x => (x, y))),
        (pixelHit tol cx cy radius c.1 c.2
          (((intRange x1 x2).foldl (pixelStep tol cx cy radius y) s).img.pix c.1 c.2) =
        pixelHit tol cx cy radius c.1 c.2 (s.img.pix c.1 c.2)) := by
      intro c hc
      obtain ⟨y'', hy'', hc2⟩ := List.mem_flatMap.mp hc
      obtain ⟨x'', _, rfl⟩ := List.mem_map.mp hc2
      have hrow : (((intRange x1 x2).foldl (pixelStep tol cx cy radius y) s).img.pix x'' y'' =
          s.img.pix x'' y'') := by
        rw [xfold_img_pix tol cx cy radius y _ (nodup_intRange x1 x2)]
        refine if_neg ?_
        rintro ⟨⟨_, hyy⟩, _⟩
        exact hy (hyy ▸ hy'')
      rw [hrow]
    rw [List.filter_congr hstable,
      xfold_corner_transparent tol cx cy radius y _ (nodup_intRange x1 x2),
      List.flatMap_cons, List.filter_append, List.length_append, length_filter_row_hit]
    push_cast
    ring

lemma yfold_transparent_count (tol cx cy radius x1 x2 : ℤ) (ys : List ℤ)
    (hnd : ys.Nodup) (s : PassState) :
    ((ys.foldl
      (fun s y => (intRange x1 x2).foldl (pixelStep tol cx cy radius y) s) s).transparent_count =
      s.transparent_count +
        (((ys.flatMap (fun y => (intRange x1 x2).map (fun x => (x, y)))).filter
          (fun c : ℤ × ℤ => pixelHit tol cx cy radius c.1 c.2 (s.img.pix c.1 c.2))).length : ℤ)) := by
  induction ys generalizing s with
  | nil => simp
  | cons y ys ih =>
    obtain ⟨hy, hnd'⟩ := List.nodup_cons.mp hnd
    rw [List.foldl_cons, ih hnd']
    have hstable : ∀ c ∈ ys.flatMap (fun y => (intRange x1 x2).map (fun x => (x, y))),
        (pixelHit tol cx cy radius c.1 c.2
          (((intRange x1 x2).foldl (pixelStep tol cx cy radius y) s).img.pix c.1 c.2) =
        pixelHit tol cx cy radius c.1 c.2 (s.img.pix c.1 c.2)) := by
      intro c hc
      obtain ⟨y'', hy'', hc2⟩ := List.mem_flatMap.mp hc
      obtain ⟨x'', _, rfl⟩ := List.mem_map.mp hc2
      have hrow : (((intRange x1 x2).foldl (pixelStep tol cx cy radius y) s).img.pix x'' y'' =
          s.img.pix x'' y'') := by
        rw [xfold_img_pix tol cx cy radius y _ (nodup_intRange x1 x2)]
        refine if_neg ?_
        rintro ⟨⟨_, hyy⟩, _⟩
        exact hy (hyy ▸ hy'')
      rw [hrow]
    rw [List.filter_congr hstable,
      xfold_transparent_count tol cx cy radius y _ (nodup_intRange x1 x2),
      List.flatMap_cons, List.filter_append, List.length_append, length_filter_row_hit]
    push_cast
    ring

/-! ### One region's pass, characterised against the input image -/

lemma regionPass_img_width (tol : ℤ) (img : Image) (tc : ℤ) (reg : CornerRegion) :
    (regionPass tol img tc reg).img.width = img.width := by
  unfold regionPass
  rw [yfold_img_width]

lemma regionPass_img_height (tol : ℤ) (img : Image) (tc : ℤ) (reg : CornerRegion) :
    (regionPass tol img tc reg).img.height = img.height := by
  unfold regionPass
  rw [yfold_img_height]

lemma regionPass_img_pix (tol : ℤ) (img : Image) (tc : ℤ) (reg : CornerRegion)
    (x' y' : ℤ) :
    (regionPass tol img tc reg).img.pix x' y' =
      if testedBy img.width img.height reg x' y' ∧ classifyPixel (img.pix x' y') tol = true then
        (img.pix x' y').clear
      else img.pix x' y' := by
  unfold regionPass
  rw [yfold_img_pix tol reg.cx reg.cy reg.radius _ _ _ (nodup_intRange _ _)]
  refine if_congr ?_ rfl rfl
  unfold testedBy
  rw [mem_intRange, mem_intRange, pixelHit_eq_classify, Bool.and_eq_true]
  unfold classifyPixel
  constructor
  · rintro ⟨⟨⟨hx1, hx2⟩, ⟨hy1, hy2⟩⟩, hc, hb⟩
    exact ⟨⟨hx1, hx2, hy1, hy2, hc⟩, hb⟩
  · rintro ⟨⟨hx1, hx2, hy1, hy2, hc⟩, hb⟩
    exact ⟨⟨⟨hx1, hx2⟩, ⟨hy1, hy2⟩⟩, hc, hb⟩

lemma regionPass_corner_total (tol : ℤ) (img : Image) (tc : ℤ) (reg : CornerRegion) :
    (regionPass tol img tc reg).corner_total = countTested img.width img.height reg := by
  unfold regionPass
  rw [yfold_corner_total]
  unfold countTested bboxCells
  norm_num

lemma regionPass_corner_transparent (tol : ℤ) (img : Image) (tc : ℤ) (reg : CornerRegion) :
    (regionPass tol img tc reg).corner_transparent = countTransparent tol img reg := by
  unfold regionPass
  rw [yfold_corner_transparent _ _ _ _ _ _ _ (nodup_intRange _ _)]
  unfold countTransparent bboxCells
  norm_num

lemma regionPass_transparent_count (tol : ℤ) (img : Image) (tc : ℤ) (reg : CornerRegion) :
    (regionPass tol img tc reg).transparent_count = tc + countTransparent tol img reg := by
  unfold regionPass
  rw [yfold_transparent_count _ _ _ _ _ _ _ (nodup_intRange _ _)]
  unfold countTransparent bboxCells
  norm_num

/-! ### The fold over all four regions -/

/-- Clearing alpha does not change whether a pixel is hit: the classifier
only reads RGB. -/
lemma pixelHit_clear (tol cx cy radius x y : ℤ) (p : Pixel) :
    pixelHit tol cx cy radius x y p.clear = pixelHit tol cx cy radius x y p := rfl

/-- A region pass never changes what a later region pass counts: dimensions
and RGB channels are preserved. -/
lemma countTransparent_stable (tol : ℤ) (img : Image) (tc : ℤ) (reg reg' : CornerRegion) :
    countTransparent tol (regionPass tol img tc reg).img reg' =
      countTransparent tol img reg' := by
  unfold countTransparent
  rw [regionPass_img_width, regionPass_img_height]
  have hcg : ∀ c ∈ bboxCells img.width img.height reg',
      (pixelHit tol reg'.cx reg'.cy reg'.radius c.1 c.2
        ((regionPass tol img tc reg).img.pix c.1 c.2) =
      pixelHit tol reg'.cx reg'.cy reg'.radius c.1 c.2 (img.pix c.1 c.2)) := by
    intro c _
    rw [regionPass_img_pix]
    by_cases h : testedBy img.width img.height reg c.1 c.2 ∧
        classifyPixel (img.pix c.1 c.2) tol = true
    · rw [if_pos h, pixelHit_clear]
    · rw [if_neg h]
  rw [List.filter_congr hcg]

lemma regsFold_img_width (tol : ℤ) (regs : List CornerRegion)
    (acc : Image × ℤ × List (ℤ × ℤ)) :
    ((regs.foldl
      (fun acc reg =>
        let s := regionPass tol acc.1 acc.2.1 reg
        (s.img, s.transparent_count, acc.2.2 ++ [(s.corner_transparent, s.corner_total)]))
      acc).1.width = acc.1.width) := by
  induction regs generalizing acc with
  | nil => rfl
  | cons reg regs ih => rw [List.foldl_cons, ih]; exact regionPass_img_width ..

lemma regsFold_img_height (tol : ℤ) (regs : List CornerRegion)
    (acc : Image × ℤ × List (ℤ × ℤ)) :
    ((regs.foldl
      (fun acc reg =>
        let s := regionPass tol acc.1 acc.2.1 reg
        (s.img, s.transparent_count, acc.2.2 ++ [(s.corner_transparent, s.corner_total)]))
      acc).1.height = acc.1.height) := by
  induction regs generalizing acc with
  | nil => rfl
  | cons reg regs ih => rw [List.foldl_cons, ih]; exact regionPass_img_height ..

lemma regsFold_img_pix (tol : ℤ) (regs : List CornerRegion)
    (acc : Image × ℤ × List (ℤ × ℤ)) (x' y' : ℤ) :
    ((regs.foldl
      (fun acc reg =>
        let s := regionPass tol acc.1 acc.2.1 reg
        (s.img, s.transparent_count, acc.2.2 ++ [(s.corner_transparent, s.corner_total)]))
      acc).1.pix x' y' =
      if ∃ reg ∈ regs, testedBy acc.1.width acc.1.height reg x' y' ∧
          classifyPixel (acc.1.pix x' y') tol = true then
        (acc.1.pix x' y').clear
      else acc.1.pix x' y') := by
  induction regs generalizing acc with
  | nil => simp
  | cons reg regs ih =>
    rw [List.foldl_cons, ih]
    have hpix := regionPass_img_pix tol acc.1 acc.2.1 reg x' y'
    have hw := regionPass_img_width tol acc.1 acc.2.1 reg
    have hh := regionPass_img_height tol acc.1 acc.2.1 reg
    by_cases hfirst : testedBy acc.1.width acc.1.height reg x' y' ∧
        classifyPixel (acc.1.pix x' y') tol = true
    · have hpix' : (regionPass tol acc.1 acc.2.1 reg).img.pix x' y' =
          (acc.1.pix x' y').clear := by rw [hpix, if_pos hfirst]
      have hcls : classifyPixel ((regionPass tol acc.1 acc.2.1 reg).img.pix x' y') tol =
          classifyPixel (acc.1.pix x' y') tol := by rw [hpix', classifyPixel_clear]
      have hR : (∃ r ∈ reg :: regs, testedBy acc.1.width acc.1.height r x' y' ∧
          classifyPixel (acc.1.pix x' y') tol = true) :=
        ⟨reg, List.mem_cons_self .., hfirst⟩
      rw [if_pos hR]
      by_cases hrest : ∃ r ∈ regs, testedBy acc.1.width acc.1.height r x' y' ∧
          classifyPixel (acc.1.pix x' y') tol = true
      · rw [if_pos (by simpa [hw, hh, hcls] using hrest), hpix', Pixel.clear_clear]
      · rw [if_neg (by simpa [hw, hh, hcls] using hrest), hpix']
    · have hpix' : (regionPass tol acc.1 acc.2.1 reg).img.pix x' y' = acc.1.pix x' y' := by
        rw [hpix, if_neg hfirst]
      have hiff : (∃ r ∈ regs, testedBy (regionPass tol acc.1 acc.2.1 reg).img.width
            (regionPass tol acc.1 acc.2.1 reg).img.height r x' y' ∧
          classifyPixel ((regionPass tol acc.1 acc.2.1 reg).img.pix x' y') tol = true) ↔
          (∃ r ∈ reg :: regs, testedBy acc.1.width acc.1.height r x' y' ∧
          classifyPixel (acc.1.pix x' y') tol = true) := by
        rw [hw, hh, hpix']
        constructor
        · rintro ⟨r, hr, hcond⟩; exact ⟨r, List.mem_cons_of_mem _ hr, hcond⟩
        · rintro ⟨r, hr, hcond⟩
          rcases List.mem_cons.mp hr with rfl | hr
          · exact absurd hcond hfirst
          · exact ⟨r, hr, hcond⟩
      rw [if_congr hiff rfl rfl, hpix']

lemma regsFold_stats (tol : ℤ) (regs : List CornerRegion)
    (acc : Image × ℤ × List (ℤ × ℤ)) :
    ((regs.foldl
      (fun acc reg =>
        let s := regionPass tol acc.1 acc.2.1 reg
        (s.img, s.transparent_count, acc.2.2 ++ [(s.corner_transparent, s.corner_total)]))
      acc).2.2 =
      acc.2.2 ++ regs.map (fun reg =>
        (countTransparent tol acc.1 reg, countTested acc.1.width acc.1.height reg))) := by
  induction regs generalizing acc with
  | nil => simp
  | cons reg regs ih =>
    rw [List.foldl_cons, ih]
    show (acc.2.2 ++ [((regionPass tol acc.1 acc.2.1 reg).corner_transparent,
        (regionPass tol acc.1 acc.2.1 reg).corner_total)]) ++
        regs.map _ = _
    rw [regionPass_corner_transparent, regionPass_corner_total]
    have hmap : regs.map (fun reg' =>
        (countTransparent tol (regionPass tol acc.1 acc.2.1 reg).img reg',
         countTested (regionPass tol acc.1 acc.2.1 reg).img.width
           (regionPass tol acc.1 acc.2.1 reg).img.height reg')) =
        regs.map (fun reg' =>
        (countTransparent tol acc.1 reg', countTested acc.1.width acc.1.height reg')) := by
      refine List.map_congr_left ?_
      intro r _
      rw [countTransparent_stable, regionPass_img_width, regionPass_img_height]
    rw [hmap, List.map_cons, List.append_assoc]
    rfl

lemma regsFold_tc (tol : ℤ) (regs : List CornerRegion)
    (acc : Image × ℤ × List (ℤ × ℤ)) :
    ((regs.foldl
      (fun acc reg =>
        let s := regionPass tol acc.1 acc.2.1 reg
        (s.img, s.transparent_count, acc.2.2 ++ [(s.corner_transparent, s.corner_total)]))
      acc).2.1 =
      acc.2.1 + (regs.map (fun reg => countTransparent tol acc.1 reg)).sum) := by
  induction regs generalizing acc with
  | nil => simp
  | cons reg regs ih =>
    rw [List.foldl_cons, ih]
    show (regionPass tol acc.1 acc.2.1 reg).transparent_count +
        (regs.map (fun reg' =>
          countTransparent tol (regionPass tol acc.1 acc.2.1 reg).img reg')).sum = _
    rw [regionPass_transparent_count]
    have hmap : regs.map (fun reg' =>
        countTransparent tol (regionPass tol acc.1 acc.2.1 reg).img reg') =
        regs.map (fun reg' => countTransparent tol acc.1 reg') := by
      refine List.map_congr_left ?_
      intro r _
      rw [countTransparent_stable]
    rw [hmap, List.map_cons, List.sum_cons]
    ring

/-! ### The whole pass, characterised pointwise -/

lemma mask_width (img : Image) (ratio : ℚ) (tol : ℤ) :
    (make_icon_transparent img ratio tol).width = img.width := by
  unfold make_icon_transparent runRegions
  exact regsFold_img_width ..

lemma mask_height (img : Image) (ratio : ℚ) (tol : ℤ) :
    (make_icon_transparent img ratio tol).height = img.height := by
  unfold make_icon_transparent runRegions
  exact regsFold_img_height ..

/-- Pointwise description of the mask: a pixel is rewritten to the same RGB
with alpha 0 exactly when some region tests it and classifies it as
background; otherwise it is untouched. -/
lemma mask_pix (img : Image) (ratio : ℚ) (tol : ℤ) (x y : ℤ) :
    (make_icon_transparent img ratio tol).pix x y =
      if madeTransparent img ratio tol x y then (img.pix x y).clear else img.pix x y := by
  unfold make_icon_transparent runRegions madeTransparent
  exact regsFold_img_pix ..

/-- The per-region counter pairs of a pass are exactly the candidate and hit
counts over the input image. -/
lemma runRegions_stats (img : Image) (ratio : ℚ) (tol : ℤ) :
    (runRegions img ratio tol).2.2 =
      (cornerRegions img.width img.height ratio).map (fun reg =>
        (countTransparent tol img reg, countTested img.width img.height reg)) := by
  unfold runRegions
  rw [regsFold_stats]
  rfl

/-- The final global `transparent_count` is the sum of the per-region hit
counts, all measured against the input image. -/
lemma runRegions_tc (img : Image) (ratio : ℚ) (tol : ℤ) :
    (runRegions img ratio tol).2.1 =
      ((cornerRegions img.width img.height ratio).map
        (fun reg => countTransparent tol img reg)).sum := by
  unfold runRegions
  rw [regsFold_tc]
  ring

/-! ### Helper lemmas for the claims -/

lemma Image.ext' (i1 i2 : Image) (hw : i1.width = i2.width)
    (hh : i1.height = i2.height) (hp : ∀ x y, i1.pix x y = i2.pix x y) : i1 = i2 := by
  cases i1
  cases i2
  simp only [Image.mk.injEq]
  exact ⟨hw, hh, funext fun x => funext fun y => hp x y⟩

/-- Python's `int(...) // 2` on a nonnegative float equals the floor of the
exact half: `⌊q⌋.fdiv 2 = ⌊q / 2⌋`. -/
lemma fdiv_two_eq_floor_half (q : ℚ) : (⌊q⌋).fdiv 2 = ⌊q / 2⌋ := by
  rw [Int.fdiv_eq_ediv _ (by norm_num)]
  have h1 : (⌊q⌋ : ℚ) ≤ q := Int.floor_le q
  have h2 : q < ⌊q⌋ + 1 := Int.lt_floor_add_one q
  symm
  rw [Int.floor_eq_iff]
  constructor
  · have hle : ((⌊q⌋ / 2 : ℤ) : ℚ) * 2 ≤ (⌊q⌋ : ℚ) := by
      exact_mod_cast (by omega : (⌊q⌋ / 2) * 2 ≤ ⌊q⌋)
    push_cast at hle ⊢
    linarith
  · have hlt : (⌊q⌋ : ℚ) + 1 ≤ ((⌊q⌋ / 2 : ℤ) : ℚ) * 2 + 2 := by
      exact_mod_cast (by omega : ⌊q⌋ + 1 ≤ (⌊q⌋ / 2) * 2 + 2)
    push_cast at hlt ⊢
    linarith

/-- The radius every region receives is `⌊W * corner_ratio / 2⌋`. -/
lemma cornerRegions_radius (W : ℤ) (ratio : ℚ) :
    (cornerSize W ratio).fdiv 2 = ⌊(W : ℚ) * ratio / 2⌋ := by
  unfold cornerSize
  exact fdiv_two_eq_floor_half _

/-! ### The claims -/

/-- C4: the pixel classifier returns "background" iff every RGB channel is at
least `255 - tolerance`; the alpha channel never affects the verdict;
tolerance 0 accepts only pure white, tolerance 255 accepts everything. -/
theorem claim_C4 (r g b a a' tol : ℤ)
    (hr0 : 0 ≤ r) (hr1 : r ≤ 255) (hg0 : 0 ≤ g) (hg1 : g ≤ 255)
    (hb0 : 0 ≤ b) (hb1 : b ≤ 255) (ht0 : 0 ≤ tol) (ht1 : tol ≤ 255) :
    (isBackground r g b tol = true ↔ (255 - tol ≤ r ∧ 255 - tol ≤ g ∧ 255 - tol ≤ b)) ∧
    classifyPixel ⟨r, g, b, a⟩ tol = classifyPixel ⟨r, g, b, a'⟩ tol ∧
    (isBackground r g b 0 = true ↔ (r = 255 ∧ g = 255 ∧ b = 255)) ∧
    isBackground r g b 255 = true := by
  refine ⟨?_, rfl, ?_, ?_⟩
  · simp [isBackground, and_assoc]
  · simp only [isBackground, Bool.and_eq_true, decide_eq_true_eq]
    omega
  · simp only [isBackground, Bool.and_eq_true, decide_eq_true_eq]
    omega

theorem claim_C4_witness :
    ((0:ℤ) ≤ 250 ∧ (250:ℤ) ≤ 255 ∧ (0:ℤ) ≤ 251 ∧ (251:ℤ) ≤ 255 ∧
      (0:ℤ) ≤ 252 ∧ (252:ℤ) ≤ 255 ∧ (0:ℤ) ≤ 50 ∧ (50:ℤ) ≤ 255) ∧
    ((isBackground 250 251 252 50 = true ↔
        ((255:ℤ) - 50 ≤ 250 ∧ (255:ℤ) - 50 ≤ 251 ∧ (255:ℤ) - 50 ≤ 252)) ∧
      classifyPixel ⟨250, 251, 252, 0⟩ 50 = classifyPixel ⟨250, 251, 252, 9⟩ 50 ∧
      (isBackground 250 251 252 0 = true ↔
        ((250:ℤ) = 255 ∧ (251:ℤ) = 255 ∧ (252:ℤ) = 255)) ∧
      isBackground 250 251 252 255 = true) :=
  ⟨by norm_num,
    claim_C4 250 251 252 0 9 50 (by norm_num) (by norm_num) (by norm_num) (by norm_num)
      (by norm_num) (by norm_num) (by norm_num) (by norm_num)⟩

/-- C5: for any dimensions and `corner_ratio ∈ (0, 0.5]` the calculator
produces exactly four regions of radius `⌊W * corner_ratio / 2⌋`, centred
`radius` pixels in from each geometric corner. -/
theorem claim_C5 (W H : ℤ) (ratio : ℚ) (h0 : 0 < ratio) (h1 : ratio ≤ 1 / 2) :
    (cornerRegions W H ratio).length = 4 ∧
    (cornerRegions W H ratio).map (fun reg => (reg.cx, reg.cy, reg.radius)) =
      [(⌊(W : ℚ) * ratio / 2⌋, ⌊(W : ℚ) * ratio / 2⌋, ⌊(W : ℚ) * ratio / 2⌋),
       (W - ⌊(W : ℚ) * ratio / 2⌋, ⌊(W : ℚ) * ratio / 2⌋, ⌊(W : ℚ) * ratio / 2⌋),
       (⌊(W : ℚ) * ratio / 2⌋, H - ⌊(W : ℚ) * ratio / 2⌋, ⌊(W : ℚ) * ratio / 2⌋),
       (W - ⌊(W : ℚ) * ratio / 2⌋, H - ⌊(W : ℚ) * ratio / 2⌋, ⌊(W : ℚ) * ratio / 2⌋)] := by
  refine ⟨rfl, ?_⟩
  simp [cornerRegions, cornerRegions_radius W ratio]

theorem claim_C5_witness :
    ((0:ℚ) < 1 / 4 ∧ (1 / 4 : ℚ) ≤ 1 / 2) ∧
    (cornerRegions 8 6 (1 / 4)).length = 4 ∧
    (cornerRegions 8 6 (1 / 4)).map (fun reg => (reg.cx, reg.cy, reg.radius)) =
      [(1, 1, 1), (7, 1, 1), (1, 5, 1), (7, 5, 1)] := by
  have h := claim_C5 8 6 (1 / 4) (by norm_num) (by norm_num)
  have hrad : ⌊(((8 : ℤ) : ℚ)) * (1 / 4) / 2⌋ = 1 := by norm_num
  refine ⟨⟨by norm_num, by norm_num⟩, h.1, ?_⟩
  rw [h.2, hrad]
  norm_num

/-- C10: the body of `make_icon_transparent` sits entirely inside a
`try`/`except Exception` block, so whatever the open, masking, statistics and
save steps do, the function swallows the error and returns normally. -/
theorem claim_C10 (openResult : Except PyError Image) (ratio : ℚ) (tol : ℤ)
    (saveResult : Image → Except PyError Unit) :
    make_icon_transparent_caught openResult ratio tol saveResult = Except.ok () := by
  unfold make_icon_transparent_caught
  cases make_icon_transparent_body openResult ratio tol saveResult <;> rfl

lemma intRange_nil {a b : ℤ} (h : b ≤ a) : intRange a b = [] := by
  unfold intRange
  rw [show (b - a).toNat = 0 by omega]
  rfl

/-- C1 (amended): the code validates nothing and raises nothing.  With
`corner_ratio = 0` the derived radius is 0, every bounding box is empty, the
pass completes normally with the buffer bit-for-bit unchanged, and no pixel
is counted as transparent. -/
theorem claim_C1 (img : Image) (tol : ℤ) :
    make_icon_transparent img 0 tol = img ∧ (runRegions img 0 tol).2.1 = 0 := by
  have hcs : cornerSize img.width 0 = 0 := by simp [cornerSize]
  have hfd : (0 : ℤ).fdiv 2 = 0 := rfl
  have hreg : cornerRegions img.width img.height 0 =
      [⟨0, 0, 0, "左上角"⟩, ⟨img.width, 0, 0, "右上角"⟩,
       ⟨0, img.height, 0, "左下角"⟩, ⟨img.width, img.height, 0, "右下角"⟩] := by
    simp [cornerRegions, hcs, hfd]
  have hzero : ∀ (cx cy : ℤ) (lab : String),
      countTransparent tol img ⟨cx, cy, 0, lab⟩ = 0 := by
    intro cx cy lab
    simp only [countTransparent, bboxCells]
    rw [intRange_nil (by omega : min img.height (cy + 0) ≤ max 0 (cy - 0))]
    rfl
  constructor
  · refine Image.ext' _ _ (mask_width ..) (mask_height ..) ?_
    intro x y
    rw [mask_pix]
    refine if_neg ?_
    rintro ⟨reg, hmem, htest, -⟩
    rw [hreg] at hmem
    simp only [List.mem_cons, List.not_mem_nil, or_false] at hmem
    obtain ⟨ha, hb, hc, hd, -⟩ := htest
    rcases hmem with rfl | rfl | rfl | rfl <;> simp only at ha hb hc hd <;> omega
  · rw [runRegions_tc, hreg]
    simp [hzero]

set_option maxRecDepth 100000 in
/-- C1 counterexample: with `corner_ratio = 0.6` the pass raises nothing and
the buffer is *not* unchanged — on a 10×10 all-white image the pixel (3, 3)
gets its alpha rewritten to 0. -/
theorem claim_C1_counterexample :
    ((make_icon_transparent (solidImage 10 10 whitePx) (3 / 5) 50).pix 3 3).a = 0 ∧
    ((solidImage 10 10 whitePx).pix 3 3).a = 255 := by
  constructor
  · have h : cornerSize 10 (3 / 5) = 6 := by norm_num [cornerSize]
    simp only [make_icon_transparent, runRegions, solidImage, cornerRegions, h]
    decide
  · rfl

/-- C3: pixels strictly outside all four circles are unchanged, and any
modified pixel keeps its RGB channels and only has alpha rewritten (to 0). -/
theorem claim_C3 (img : Image) (ratio : ℚ) (tol : ℤ) (h0 : 0 < ratio)
    (h1 : ratio ≤ 1 / 2) (x y : ℤ) :
    ((∀ reg ∈ cornerRegions img.width img.height ratio,
        reg.radius ^ 2 < (x - reg.cx) ^ 2 + (y - reg.cy) ^ 2) →
      (make_icon_transparent img ratio tol).pix x y = img.pix x y) ∧
    ((make_icon_transparent img ratio tol).pix x y).r = (img.pix x y).r ∧
    ((make_icon_transparent img ratio tol).pix x y).g = (img.pix x y).g ∧
    ((make_icon_transparent img ratio tol).pix x y).b = (img.pix x y).b ∧
    (((make_icon_transparent img ratio tol).pix x y).a = (img.pix x y).a ∨
      ((make_icon_transparent img ratio tol).pix x y).a = 0) := by
  constructor
  · intro hout
    rw [mask_pix]
    refine if_neg ?_
    rintro ⟨reg, hmem, htest, -⟩
    have hc := of_decide_eq_true htest.2.2.2.2
    exact absurd (hout reg hmem) (not_lt.mpr hc.2)
  · rw [mask_pix]
    by_cases hmade : madeTransparent img ratio tol x y
    · rw [if_pos hmade]
      exact ⟨rfl, rfl, rfl, Or.inr rfl⟩
    · rw [if_neg hmade]
      exact ⟨rfl, rfl, rfl, Or.inl rfl⟩

theorem claim_C3_witness :
    ((0 : ℚ) < 1 / 4 ∧ (1 / 4 : ℚ) ≤ 1 / 2) ∧
    (((∀ reg ∈ cornerRegions (solidImage 4 4 whitePx).width
          (solidImage 4 4 whitePx).height (1 / 4),
        reg.radius ^ 2 < ((2 : ℤ) - reg.cx) ^ 2 + ((2 : ℤ) - reg.cy) ^ 2) →
      (make_icon_transparent (solidImage 4 4 whitePx) (1 / 4) 50).pix 2 2 =
        (solidImage 4 4 whitePx).pix 2 2) ∧
    ((make_icon_transparent (solidImage 4 4 whitePx) (1 / 4) 50).pix 2 2).r =
      ((solidImage 4 4 whitePx).pix 2 2).r ∧
    ((make_icon_transparent (solidImage 4 4 whitePx) (1 / 4) 50).pix 2 2).g =
      ((solidImage 4 4 whitePx).pix 2 2).g ∧
    ((make_icon_transparent (solidImage 4 4 whitePx) (1 / 4) 50).pix 2 2).b =
      ((solidImage 4 4 whitePx).pix 2 2).b ∧
    (((make_icon_transparent (solidImage 4 4 whitePx) (1 / 4) 50).pix 2 2).a =
      ((solidImage 4 4 whitePx).pix 2 2).a ∨
      ((make_icon_transparent (solidImage 4 4 whitePx) (1 / 4) 50).pix 2 2).a = 0)) :=
  ⟨⟨by norm_num, by norm_num⟩, claim_C3 _ _ 50 (by norm_num) (by norm_num) 2 2⟩

/-- C6: one fixed configuration applied twice gives the same buffer as
applied once — the mask is idempotent. -/
theorem claim_C6 (img : Image) (ratio : ℚ) (tol : ℤ) :
    make_icon_transparent (make_icon_transparent img ratio tol) ratio tol =
      make_icon_transparent img ratio tol := by
  refine Image.ext' _ _ (by rw [mask_width]) (by rw [mask_height]) ?_
  intro x y
  have hmt : madeTransparent (make_icon_transparent img ratio tol) ratio tol x y ↔
      madeTransparent img ratio tol x y := by
    unfold madeTransparent
    rw [mask_width, mask_height, mask_pix]
    by_cases hmade : madeTransparent img ratio tol x y
    · rw [if_pos hmade]
      constructor
      · rintro ⟨reg, hm, ht, hc⟩
        exact ⟨reg, hm, ht, by rwa [classifyPixel_clear] at hc⟩
      · rintro ⟨reg, hm, ht, hc⟩
        exact ⟨reg, hm, ht, by rwa [classifyPixel_clear]⟩
    · rw [if_neg hmade]
  rw [mask_pix (make_icon_transparent img ratio tol)]
  by_cases hmade : madeTransparent img ratio tol x y
  · rw [if_pos (hmt.mpr hmade), mask_pix, if_pos hmade, Pixel.clear_clear]
  · rw [if_neg (fun hcon => hmade (hmt.mp hcon))]

/-- C7: enlarging the tolerance can only enlarge the set of pixels the pass
makes transparent. -/
theorem claim_C7 (img : Image) (ratio : ℚ) (t1 t2 : ℤ) (h : t1 < t2) (x y : ℤ)
    (hmt : madeTransparent img ratio t1 x y) : madeTransparent img ratio t2 x y := by
  obtain ⟨reg, hm, ht, hc⟩ := hmt
  refine ⟨reg, hm, ht, ?_⟩
  unfold classifyPixel isBackground at hc ⊢
  simp only [Bool.and_eq_true, decide_eq_true_eq] at hc ⊢
  omega

theorem claim_C7_witness :
    (0 : ℤ) < 50 ∧ madeTransparent (solidImage 8 8 whitePx) (1 / 4) 0 1 1 ∧
    madeTransparent (solidImage 8 8 whitePx) (1 / 4) 50 1 1 := by
  have hcs : cornerSize 8 (1 / 4) = 2 := by norm_num [cornerSize]
  have hreg8 : cornerRegions 8 8 (1 / 4) =
      [⟨1, 1, 1, "左上角"⟩, ⟨7, 1, 1, "右上角"⟩, ⟨1, 7, 1, "左下角"⟩, ⟨7, 7, 1, "右下角"⟩] := by
    simp only [cornerRegions, hcs]
    decide
  have hmt : madeTransparent (solidImage 8 8 whitePx) (1 / 4) 0 1 1 := by
    refine ⟨⟨1, 1, 1, "左上角"⟩, ?_, ?_, by decide⟩
    · show _ ∈ cornerRegions 8 8 (1 / 4)
      rw [hreg8]
      simp
    · decide
  exact ⟨by norm_num, hmt, claim_C7 _ _ 0 50 (by norm_num) 1 1 hmt⟩

/-- C2 (amended): a pixel at exactly `distance == radius` is in a region's
candidate set iff it lies in the clipped half-open bounding box
`[max 0 (cx−r), min W (cx+r)) × [max 0 (cy−r), min H (cy+r))`; such an in-box
boundary pixel is tested and, when background, its alpha is set to 0. -/
theorem claim_C2 (img : Image) (ratio : ℚ) (tol : ℤ) (reg : CornerRegion)
    (hmem : reg ∈ cornerRegions img.width img.height ratio) (x y : ℤ)
    (hx1 : max 0 (reg.cx - reg.radius) ≤ x)
    (hx2 : x < min img.width (reg.cx + reg.radius))
    (hy1 : max 0 (reg.cy - reg.radius) ≤ y)
    (hy2 : y < min img.height (reg.cy + reg.radius))
    (hrad : 0 ≤ reg.radius)
    (hdist : (x - reg.cx) ^ 2 + (y - reg.cy) ^ 2 = reg.radius ^ 2)
    (hbg : classifyPixel (img.pix x y) tol = true) :
    testedBy img.width img.height reg x y ∧
    (make_icon_transparent img ratio tol).pix x y = (img.pix x y).clear := by
  have htest : testedBy img.width img.height reg x y :=
    ⟨hx1, hx2, hy1, hy2, decide_eq_true ⟨hrad, le_of_eq hdist⟩⟩
  refine ⟨htest, ?_⟩
  rw [mask_pix]
  exact if_pos ⟨reg, hmem, htest, hbg⟩

theorem claim_C2_witness :
    testedBy 8 8 ⟨1, 1, 1, "左上角"⟩ 0 1 ∧
    (make_icon_transparent (solidImage 8 8 whitePx) (1 / 4) 50).pix 0 1 =
      ((solidImage 8 8 whitePx).pix 0 1).clear := by
  have hcs : cornerSize 8 (1 / 4) = 2 := by norm_num [cornerSize]
  have hmem : (⟨1, 1, 1, "左上角"⟩ : CornerRegion) ∈ cornerRegions 8 8 (1 / 4) := by
    simp only [cornerRegions, hcs]
    decide
  exact claim_C2 (solidImage 8 8 whitePx) (1 / 4) 50 _ hmem 0 1 (by decide) (by decide)
    (by decide) (by decide) (by decide) (by decide) (by decide)

set_option maxRecDepth 100000 in
/-- C2 counterexample: on an 8×8 image with `corner_ratio = 0.25` the
top-left region has center (1, 1) and radius 1; the in-image pixel (2, 1) is
at distance exactly `radius` from that center, is white (so it would be made
transparent if tested), yet no region's candidate set contains it and the
pass leaves it opaque — the half-open bounding box excludes `x = cx + r`. -/
theorem claim_C2_counterexample :
    (⟨1, 1, 1, "左上角"⟩ : CornerRegion) ∈ cornerRegions 8 8 (1 / 4) ∧
    ((2 : ℤ) - 1) ^ 2 + ((1 : ℤ) - 1) ^ 2 = 1 ^ 2 ∧
    (0 : ℤ) ≤ 2 ∧ (2 : ℤ) < 8 ∧ (0 : ℤ) ≤ 1 ∧ (1 : ℤ) < 8 ∧
    (∀ reg ∈ cornerRegions 8 8 (1 / 4), ¬ testedBy 8 8 reg 2 1) ∧
    classifyPixel ((solidImage 8 8 whitePx).pix 2 1) 50 = true ∧
    (make_icon_transparent (solidImage 8 8 whitePx) (1 / 4) 50).pix 2 1 =
      (solidImage 8 8 whitePx).pix 2 1 ∧
    ((solidImage 8 8 whitePx).pix 2 1).a = 255 := by
  have hcs : cornerSize 8 (1 / 4) = 2 := by norm_num [cornerSize]
  refine ⟨?_, by decide, by decide, by decide, by decide, by decide, ?_, by decide, ?_, rfl⟩
  · simp only [cornerRegions, hcs]
    decide
  · simp only [cornerRegions, hcs]
    decide
  · simp only [make_icon_transparent, runRegions, solidImage, cornerRegions, hcs]
    decide

/-- C8 (amended): the per-region counters really are the tested / made-
transparent pixel counts; a region's percentage `transparent/tested * 100` is
reported only when `tested > 0` — a region with zero tested pixels yields no
report (`none`), not `0%`, and no division is attempted; the overall
percentage divides by `width * height`, not by the tested count. -/
theorem claim_C8 (img : Image) (ratio : ℚ) (tol : ℤ) :
    (runRegions img ratio tol).2.2 =
      (cornerRegions img.width img.height ratio).map (fun reg =>
        (countTransparent tol img reg, countTested img.width img.height reg)) ∧
    regionReports img ratio tol =
      (cornerRegions img.width img.height ratio).map (fun reg =>
        if 0 < countTested img.width img.height reg then
          some ((countTransparent tol img reg : ℚ) /
            (countTested img.width img.height reg : ℚ) * 100)
        else none) ∧
    transparencyPercentage img ratio tol =
      ((((cornerRegions img.width img.height ratio).map
        (fun reg => countTransparent tol img reg)).sum : ℚ)) /
        ((img.width : ℚ) * (img.height : ℚ)) * 100 := by
  refine ⟨runRegions_stats .., ?_, ?_⟩
  · unfold regionReports
    rw [runRegions_stats, List.map_map]
    rfl
  · unfold transparencyPercentage
    rw [runRegions_tc]

set_option maxRecDepth 100000 in
/-- C8 counterexample: on a 4×4 image with `corner_ratio = 0.1` the radius is
0, every region tests zero pixels, and the per-region report is `none` (no
percentage at all), not `0%`; and on an 8×8 all-white image the "total"
percentage is `12 / 64 * 100 = 18.75%`, not `transparent/tested * 100 = 100%`. -/
theorem claim_C8_counterexample :
    regionReports (solidImage 4 4 whitePx) (1 / 10) 50 = [none, none, none, none] ∧
    (none : Option ℚ) ≠ some 0 ∧
    transparencyPercentage (solidImage 8 8 whitePx) (1 / 4) 50 = 75 / 4 ∧
    (75 / 4 : ℚ) ≠ 100 := by
  refine ⟨?_, by decide, ?_, by norm_num⟩
  · have hcs : cornerSize 4 (1 / 10) = 0 := by norm_num [cornerSize]
    simp only [regionReports, runRegions, solidImage, cornerRegions, hcs]
    decide
  · have hcs8 : cornerSize 8 (1 / 4) = 2 := by norm_num [cornerSize]
    have htc : (runRegions (solidImage 8 8 whitePx) (1 / 4) 50).2.1 = 12 := by
      simp only [runRegions, solidImage, cornerRegions, hcs8]
      decide
    unfold transparencyPercentage
    rw [htc]
    norm_num [solidImage]

/-- C9 (amended): the four regions' clipped bounding boxes are pairwise
disjoint for positive dimensions and `corner_ratio ∈ (0, 0.5]` provided
additionally `4 * radius ≤ H` (automatic when `W ≤ H`; the radius is derived
from the width alone, so a very wide, short image violates it). -/
theorem claim_C9 (W H : ℤ) (ratio : ℚ) (hW : 0 < W) (hH : 0 < H)
    (h0 : 0 < ratio) (h1 : ratio ≤ 1 / 2)
    (hHbig : 4 * (cornerSize W ratio).fdiv 2 ≤ H) :
    List.Pairwise (fun r1 r2 => ∀ x y : ℤ, ¬ (inBBox W H r1 x y ∧ inBBox W H r2 x y))
      (cornerRegions W H ratio) := by
  have hcs0 : 0 ≤ cornerSize W ratio := by
    unfold cornerSize
    refine Int.le_floor.mpr ?_
    push_cast
    exact mul_nonneg (by exact_mod_cast hW.le) h0.le
  have hr0 : 0 ≤ (cornerSize W ratio).fdiv 2 := Int.fdiv_nonneg hcs0 (by norm_num)
  have hcs2 : 2 * cornerSize W ratio ≤ W := by
    have hq : ((cornerSize W ratio : ℤ) : ℚ) ≤ (W : ℚ) * ratio := Int.floor_le _
    have hle : (W : ℚ) * ratio ≤ (W : ℚ) * (1 / 2) :=
      mul_le_mul_of_nonneg_left h1 (by exact_mod_cast hW.le)
    have h2 : (2 : ℚ) * ((cornerSize W ratio : ℤ) : ℚ) ≤ (W : ℚ) := by linarith
    exact_mod_cast h2
  have h4W : 4 * (cornerSize W ratio).fdiv 2 ≤ W := by
    have hdm := Int.ediv_add_emod (cornerSize W ratio) 2
    have hm := Int.emod_nonneg (cornerSize W ratio) (by norm_num : (2:ℤ) ≠ 0)
    rw [Int.fdiv_eq_ediv _ (by norm_num)]
    omega
  have key : ∀ r : ℤ, 0 ≤ r → 4 * r ≤ W → 4 * r ≤ H →
      List.Pairwise (fun r1 r2 => ∀ x y : ℤ, ¬ (inBBox W H r1 x y ∧ inBBox W H r2 x y))
        [⟨r, r, r, "左上角"⟩, ⟨W - r, r, r, "右上角"⟩,
         ⟨r, H - r, r, "左下角"⟩, ⟨W - r, H - r, r, "右下角"⟩] := by
    intro r hr h4w h4h
    refine List.Pairwise.cons ?_ (List.Pairwise.cons ?_
      (List.Pairwise.cons ?_ (List.Pairwise.cons ?_ List.Pairwise.nil)))
    · intro b hb
      simp only [List.mem_cons, List.not_mem_nil, or_false] at hb
      rcases hb with rfl | rfl | rfl <;>
        · intro x y
          unfold inBBox
          dsimp only
          omega
    · intro b hb
      simp only [List.mem_cons, List.not_mem_nil, or_false] at hb
      rcases hb with rfl | rfl <;>
        · intro x y
          unfold inBBox
          dsimp only
          omega
    · intro b hb
      simp only [List.mem_cons, List.not_mem_nil, or_false] at hb
      rcases hb with rfl
      intro x y
      unfold inBBox
      dsimp only
      omega
    · intro b hb
      simp only [List.not_mem_nil] at hb
  show List.Pairwise _ (cornerRegions W H ratio)
  unfold cornerRegions
  exact key _ hr0 h4W hHbig

theorem claim_C9_witness :
    ((0 : ℤ) < 8 ∧ (0 : ℤ) < 8 ∧ (0 : ℚ) < 1 / 4 ∧ (1 / 4 : ℚ) ≤ 1 / 2 ∧
      4 * (cornerSize 8 (1 / 4)).fdiv 2 ≤ 8) ∧
    List.Pairwise
      (fun r1 r2 => ∀ x y : ℤ, ¬ (inBBox 8 8 r1 x y ∧ inBBox 8 8 r2 x y))
      (cornerRegions 8 8 (1 / 4)) := by
  have hcs : cornerSize 8 (1 / 4) = 2 := by norm_num [cornerSize]
  refine ⟨⟨by norm_num, by norm_num, by norm_num, by norm_num, by rw [hcs]; decide⟩, ?_⟩
  exact claim_C9 8 8 (1 / 4) (by norm_num) (by norm_num) (by norm_num) (by norm_num)
    (by rw [hcs]; decide)

/-- C9 counterexample: with `W = 8`, `H = 2`, `corner_ratio = 0.5` (all in the
claim's stated domain) the radius is 2 and the top-left and bottom-left
regions' bounding boxes both contain the pixel (0, 0) — the boxes are not
pairwise disjoint.  The radius is derived from the width alone, so a short
wide image makes the vertical boxes collide. -/
theorem claim_C9_counterexample :
    (0 : ℤ) < 8 ∧ (0 : ℤ) < 2 ∧ (0 : ℚ) < 1 / 2 ∧ (1 / 2 : ℚ) ≤ 1 / 2 ∧
    (⟨2, 2, 2, "左上角"⟩ : CornerRegion) ∈ cornerRegions 8 2 (1 / 2) ∧
    (⟨2, 0, 2, "左下角"⟩ : CornerRegion) ∈ cornerRegions 8 2 (1 / 2) ∧
    (⟨2, 2, 2, "左上角"⟩ : CornerRegion) ≠ ⟨2, 0, 2, "左下角"⟩ ∧
    inBBox 8 2 ⟨2, 2, 2, "左上角"⟩ 0 0 ∧ inBBox 8 2 ⟨2, 0, 2, "左下角"⟩ 0 0 := by
  have hcs : cornerSize 8 (1 / 2) = 4 := by norm_num [cornerSize]
  refine ⟨by norm_num, by norm_num, by norm_num, by norm_num, ?_, ?_, by decide,
    by decide, by decide⟩
  · simp only [cornerRegions, hcs]
    decide
  · simp only [cornerRegions, hcs]
    decide
